import Mathlib

/-!
Shallow embedding of the word-scoring and candidate-selection core of the
Bookworm Adventures Volume 2 screenshot solver (src/main.py), together with
theorems checking the specification's claims about it.

Damage values are modelled over the rationals; the Python source computes with
floats, but every constant in play (letter values, gem factors) is a small
decimal and the claims checked here do not depend on binary-float rounding.
-/

/-- The seven fixed gem categories, the keys of GEM_DAMAGE_MODIFIERS in
src/main.py lines 36-44. -/
inductive Gem where
  | Amethyst
  | Emerald
  | Sapphire
  | Garnet
  | Ruby
  | Crystal
  | Diamond
deriving DecidableEq, Repr

/-- Models the dict GEM_DAMAGE_MODIFIERS of src/main.py lines 36-44. -/
def GEM_DAMAGE_MODIFIERS : Gem → ℚ
  | Gem.Amethyst => 115 / 100
  | Gem.Emerald => 120 / 100
  | Gem.Sapphire => 125 / 100
  | Gem.Garnet => 130 / 100
  | Gem.Ruby => 135 / 100
  | Gem.Crystal => 150 / 100
  | Gem.Diamond => 2

/-- Models the dict LETTER_DAMAGE_AMOUNTS of src/main.py lines 45-52:
a list of (damage key, letter string) rows. -/
def LETTER_DAMAGE_AMOUNTS : List (ℚ × List Char) :=
  [(1, "adegilnorstu".toList),
   (125 / 100, "bcfhmp".toList),
   (150 / 100, "vwy".toList),
   (175 / 100, "jk".toList),
   (2, "xz".toList),
   (275 / 100, "q".toList)]

/-- Models the inner loop of word_damage_calculator (src/main.py lines 182-185):
for each row of LETTER_DAMAGE_AMOUNTS, if the letter occurs in the row's
letter string, its key is added. -/
def letterDamage (c : Char) : ℚ :=
  (LETTER_DAMAGE_AMOUNTS.map (fun kv => if c ∈ kv.2 then kv.1 else 0)).sum

/-- Models the accumulation of the variable damage over the letters of the word
in word_damage_calculator (src/main.py lines 182-185). -/
def base_damage (word : List Char) : ℚ :=
  (word.map letterDamage).sum

/-- Models the accumulation of the variable multiplier in word_damage_calculator
(src/main.py lines 188-191): for each entry (gem_type, letters) of the global
dict gems_and_letters, for each character gem_l of letters, if gem_l occurs in
the word, the multiplier is multiplied by GEM_DAMAGE_MODIFIERS[gem_type].
The global dict is passed here as an explicit association list; its values are
strings built by concatenation in get_board_letters and may repeat letters. -/
def gem_multiplier (gems : List (Gem × List Char)) (word : List Char) : ℚ :=
  (gems.map
    (fun gl => (gl.2.map
      (fun c => if c ∈ word then GEM_DAMAGE_MODIFIERS gl.1 else 1)).prod)).prod

/-- Models Python round(x, 2) on exact rational inputs: round to the nearest
multiple of 1/100 (Mathlib round resolves ties upward, Python to even; no claim
checked here evaluates round at a tie). -/
def round2 (x : ℚ) : ℚ :=
  (round (x * 100) : ℤ) / 100

/-- Models word_damage_calculator of src/main.py lines 175-193, with the global
dict gems_and_letters passed explicitly. -/
def word_damage_calculator (gems : List (Gem × List Char)) (word : List Char) : ℚ :=
  round2 (base_damage word * gem_multiplier gems word)

/-- Models the match test of src/main.py lines 219-220:
all(letter_count[char] >= word_counter[char] for char in word), where
letter_count is Counter(input_letters) and word_counter is Counter(word).
The spec calls this operation matches(word, inventory); that name is reserved
in Lean, hence the underscore. -/
def word_matches (word inventory : List Char) : Bool :=
  word.all (fun c => word.count c ≤ inventory.count c)

/-- Models valid_words.sort(key=word_damage_calculator, reverse=True) of
src/main.py line 224: a stable sort descending by computed damage (Python list
sort is documented stable; insertion sort with this relation realizes the same
stable descending order). -/
def ranked_words (gems : List (Gem × List Char)) (ws : List (List Char)) :
    List (List Char) :=
  List.insertionSort
    (fun a b => word_damage_calculator gems b ≤ word_damage_calculator gems a) ws

/-- Models the display truncation valid_words[:30] of src/main.py line 225. -/
def displayed_words (ws : List (List Char)) : List (List Char) :=
  ws.take 30

/-- Models text.replace('qu','q') of src/main.py line 157, specialised from
Python str.replace, which substitutes leftmost non-overlapping occurrences. -/
def replace_qu_q : List Char → List Char
  | [] => []
  | 'q' :: 'u' :: rest => 'q' :: replace_qu_q rest
  | c :: rest => c :: replace_qu_q rest

/-- Models word.replace('q','qu') of src/main.py line 226, specialised from
Python str.replace, which substitutes leftmost non-overlapping occurrences. -/
def replace_q_qu : List Char → List Char
  | [] => []
  | 'q' :: rest => 'q' :: 'u' :: replace_q_qu rest
  | c :: rest => c :: replace_q_qu rest

/-- Holds when every occurrence of the letter q in the string is immediately
followed by the letter u. -/
def q_followed_by_u : List Char → Bool
  | [] => true
  | ['q'] => false
  | 'q' :: c :: rest => c = 'u' && q_followed_by_u (c :: rest)
  | _ :: rest => q_followed_by_u rest

/-- A character is recognized when it occurs in some row of
LETTER_DAMAGE_AMOUNTS (this set is exactly the 26 lowercase Latin letters). -/
def recognized (c : Char) : Bool :=
  LETTER_DAMAGE_AMOUNTS.any (fun kv => c ∈ kv.2)

/-- Evaluation helper: when the pre-rounding damage times 100 is the integer n,
the rounded damage is n/100. -/
theorem round2_eq_of_mul_eq (x : ℚ) (n : ℤ) (h : x * 100 = (n : ℚ)) :
    round2 x = (n : ℚ) / 100 := by
  simp [round2, h, round_intCast]

example : word_damage_calculator [] ['q', 'i', 'z'] = 575 / 100 := by
  rw [word_damage_calculator, round2_eq_of_mul_eq _ 575 ?_]
  · norm_num
  · simp [base_damage, letterDamage, LETTER_DAMAGE_AMOUNTS, gem_multiplier]
    norm_num

example : word_matches ['r', 'a', 't'] ['r', 't', 'a', 's', 'q'] = true := by decide

example : word_matches ['s', 't', 'a', 'r', 't'] ['r', 't', 'a', 's', 'q'] = false := by
  decide

/-- Helper: a Bool-valued all over a list is unchanged when the predicate is
replaced by one agreeing on the list's members. -/
theorem all_congr_mem {α : Type} (l : List α) (f g : α → Bool)
    (h : ∀ a ∈ l, f a = g a) : l.all f = l.all g := by
  induction l with
  | nil => rfl
  | cons a t ih =>
    simp only [List.all_cons, h a (List.mem_cons_self a t),
      ih (fun x hx => h x (List.mem_cons_of_mem a hx))]

/-- Helper: a product of per-letter conditional factors collapses to the factor
raised to the number of letter occurrences satisfying the condition. -/
theorem prod_ite_mem_eq_pow (m : ℚ) (w ls : List Char) :
    (ls.map (fun c => if c ∈ w then m else 1)).prod =
      m ^ ls.countP (fun c => decide (c ∈ w)) := by
  induction ls with
  | nil => rfl
  | cons a t ih =>
    by_cases h : a ∈ w
    · simp [h, ih, List.countP_cons, pow_succ, mul_comm]
    · simp [h, ih, List.countP_cons]

/-- Helper: every gem category's damage factor is at least 1. -/
theorem one_le_gem_modifier (g : Gem) : 1 ≤ GEM_DAMAGE_MODIFIERS g := by
  cases g <;> norm_num [GEM_DAMAGE_MODIFIERS]

/-- Helper: the base value of any single character is non-negative. -/
theorem letterDamage_nonneg (c : Char) : 0 ≤ letterDamage c := by
  unfold letterDamage LETTER_DAMAGE_AMOUNTS
  apply List.sum_nonneg
  intro x hx
  simp only [List.map_cons, List.map_nil, List.mem_cons, List.not_mem_nil,
    or_false] at hx
  rcases hx with h | h | h | h | h | h <;> subst h <;> split <;> norm_num

/-- Helper: rounding to two decimals preserves non-negativity. -/
theorem round2_nonneg (x : ℚ) (h : 0 ≤ x) : 0 ≤ round2 x := by
  unfold round2
  apply div_nonneg _ (by norm_num)
  rw [round_eq]
  have h1 : (0 : ℚ) ≤ x * 100 + 1 / 2 := by positivity
  exact_mod_cast Int.floor_nonneg.mpr h1

/-- C2: the matcher accepts word W against inventory I iff for every letter c
of W the count of c in I is at least the count of c in W, equivalently iff the
letter multiset of W is contained in the letter multiset of I. The embedding
is a pure function of (word, inventory), so the decision has no effect on I. -/
theorem C2_match_iff_multiset_containment (W I : List Char) :
    (word_matches W I = true ↔ ∀ c ∈ W, W.count c ≤ I.count c) ∧
    (word_matches W I = true ↔ (W : Multiset Char) ≤ (I : Multiset Char)) := by
  have h1 : word_matches W I = true ↔ ∀ c ∈ W, W.count c ≤ I.count c := by
    simp [word_matches]
  refine ⟨h1, h1.trans ?_⟩
  rw [Multiset.le_iff_count]
  constructor
  · intro h c
    by_cases hc : c ∈ W
    · simpa using h c hc
    · simp [List.count_eq_zero_of_not_mem hc]
  · intro h c hc
    simpa using h c

/-- C4: with the empty gem assignment, the damage of the word quiz in its
fused-tile encoding qiz is 5.75; the fused tile contributes 2.75 once for the
pair, z contributes 2.00 and i contributes 1.00. -/
theorem C4_quiz_damage :
    word_damage_calculator [] ['q', 'i', 'z'] = 575 / 100 ∧
    letterDamage 'q' = 275 / 100 ∧ letterDamage 'i' = 1 ∧ letterDamage 'z' = 2 := by
  refine ⟨?_, ?_, ?_, ?_⟩
  · rw [word_damage_calculator, round2_eq_of_mul_eq _ 575 ?_]
    · norm_num
    · simp [base_damage, letterDamage, LETTER_DAMAGE_AMOUNTS, gem_multiplier]
      norm_num
  · simp [letterDamage, LETTER_DAMAGE_AMOUNTS]
  · simp [letterDamage, LETTER_DAMAGE_AMOUNTS]
  · simp [letterDamage, LETTER_DAMAGE_AMOUNTS]

/-- C5: damage is invariant under permutation of the word's letters, for any
fixed gem assignment: both the base-value sum and the gem multiplier depend
only on the multiset of letters. -/
theorem C5_damage_perm_invariant (gems : List (Gem × List Char))
    (W W' : List Char) (h : W.Perm W') :
    word_damage_calculator gems W = word_damage_calculator gems W' := by
  unfold word_damage_calculator
  have hb : base_damage W = base_damage W' := (h.map letterDamage).sum_eq
  have hm : gem_multiplier gems W = gem_multiplier gems W' := by
    simp only [gem_multiplier, h.mem_iff]
  rw [hb, hm]

/-- C5 witness: tset is a permutation of test and both score equally under a
Ruby gem on t. -/
theorem C5_witness :
    List.Perm ['t', 's', 'e', 't'] ['t', 'e', 's', 't'] ∧
    word_damage_calculator [(Gem.Ruby, ['t'])] ['t', 's', 'e', 't'] =
      word_damage_calculator [(Gem.Ruby, ['t'])] ['t', 'e', 's', 't'] :=
  ⟨by decide, C5_damage_perm_invariant [(Gem.Ruby, ['t'])] _ _ (by decide)⟩

/-- C6: damage with the empty gem assignment equals damage with any gem
assignment none of whose assigned letters occurs in the word. -/
theorem C6_unrelated_gems_no_effect (gems : List (Gem × List Char))
    (W : List Char) (h : ∀ gl ∈ gems, ∀ c ∈ gl.2, c ∉ W) :
    word_damage_calculator gems W = word_damage_calculator [] W := by
  unfold word_damage_calculator
  have hm : gem_multiplier gems W = 1 := by
    unfold gem_multiplier
    apply List.prod_eq_one
    intro x hx
    simp only [List.mem_map] at hx
    obtain ⟨gl, hgl, rfl⟩ := hx
    apply List.prod_eq_one
    intro y hy
    simp only [List.mem_map] at hy
    obtain ⟨c, hc, rfl⟩ := hy
    rw [if_neg (h gl hgl c hc)]
  have hm0 : gem_multiplier [] W = 1 := rfl
  rw [hm, hm0]

/-- C6 witness: a Ruby gem assigned to the letter z does not change the damage
of the word test, which contains no z. -/
theorem C6_witness :
    (∀ gl ∈ [(Gem.Ruby, ['z'])], ∀ c ∈ gl.2, c ∉ ['t', 'e', 's', 't']) ∧
    word_damage_calculator [(Gem.Ruby, ['z'])] ['t', 'e', 's', 't'] =
      word_damage_calculator [] ['t', 'e', 's', 't'] :=
  ⟨by decide, C6_unrelated_gems_no_effect [(Gem.Ruby, ['z'])] _ (by decide)⟩

/-- C9: for every word and every gem assignment over the seven fixed
categories, the accumulated gem multiplier is at least 1 and the computed
damage is non-negative. -/
theorem C9_damage_nonneg_multiplier_ge_one (gems : List (Gem × List Char))
    (W : List Char) :
    1 ≤ gem_multiplier gems W ∧ 0 ≤ word_damage_calculator gems W := by
  have hm : 1 ≤ gem_multiplier gems W := by
    unfold gem_multiplier
    apply List.one_le_prod
    intro x hx
    simp only [List.mem_map] at hx
    obtain ⟨gl, hgl, rfl⟩ := hx
    apply List.one_le_prod
    intro y hy
    simp only [List.mem_map] at hy
    obtain ⟨c, hc, rfl⟩ := hy
    split
    · exact one_le_gem_modifier gl.1
    · exact le_refl 1
  refine ⟨hm, ?_⟩
  unfold word_damage_calculator
  apply round2_nonneg
  have hb : 0 ≤ base_damage W := by
    apply List.sum_nonneg
    intro x hx
    simp only [base_damage, List.mem_map] at hx
    obtain ⟨c, hc, rfl⟩ := hx
    exact letterDamage_nonneg c
  exact mul_nonneg hb (le_trans zero_le_one hm)

/-- Helper: the base value of a word decomposes on its first letter. -/
theorem base_damage_cons (a : Char) (t : List Char) :
    base_damage (a :: t) = letterDamage a + base_damage t := by
  simp [base_damage]

/-- Helper: a character outside the recognized alphabet has base value zero. -/
theorem letterDamage_eq_zero_of_unrecognized (c : Char)
    (hc : recognized c = false) : letterDamage c = 0 := by
  have hmem : ∀ kv ∈ LETTER_DAMAGE_AMOUNTS, c ∉ kv.2 := by
    intro kv hkv hmem
    have : recognized c = true := by
      unfold recognized
      rw [List.any_eq_true]
      exact ⟨kv, hkv, by simpa using hmem⟩
    rw [this] at hc
    exact Bool.noConfusion hc
  unfold letterDamage
  apply List.sum_eq_zero
  intro x hx
  simp only [List.mem_map] at hx
  obtain ⟨kv, hkv, rfl⟩ := hx
  rw [if_neg (hmem kv hkv)]

/-- C8: characters outside the recognized letter alphabet contribute zero to
the base-value sum (the calculator is total on them and the sum equals the sum
over the recognized letters alone), and adding such a character to the
inventory never changes the match decision of a word made of recognized
letters. -/
theorem C8_unrecognized_chars (S W I : List Char) (c : Char)
    (hc : recognized c = false) (hW : ∀ d ∈ W, recognized d = true) :
    letterDamage c = 0 ∧ base_damage S = base_damage (S.filter recognized) ∧
    word_matches W (c :: I) = word_matches W I := by
  refine ⟨letterDamage_eq_zero_of_unrecognized c hc, ?_, ?_⟩
  · induction S with
    | nil => rfl
    | cons a t ih =>
      by_cases ha : recognized a = true
      · rw [base_damage_cons, List.filter_cons_of_pos (by simpa using ha),
          base_damage_cons, ih]
      · have ha' : recognized a = false := by simpa using ha
        rw [base_damage_cons, List.filter_cons_of_neg (by simpa using ha), ih,
          letterDamage_eq_zero_of_unrecognized a ha', zero_add]
  · unfold word_matches
    apply all_congr_mem
    intro d hd
    have hdc : d ≠ c := by
      intro hdc
      have hrec := hW d hd
      rw [hdc, hc] at hrec
      exact Bool.noConfusion hrec
    rw [List.count_cons]
    simp [Ne.symm hdc]

/-- C8 witness: the exclamation mark is unrecognized, scores zero, drops out of
the base sum of !ab, and does not help the inventory tes satisfy the word
test. -/
theorem C8_witness :
    recognized '!' = false ∧ (∀ d ∈ ['t', 'e', 's', 't'], recognized d = true) ∧
    (letterDamage '!' = 0 ∧
      base_damage ['!', 'a', 'b'] = base_damage (['!', 'a', 'b'].filter recognized) ∧
      word_matches ['t', 'e', 's', 't'] ('!' :: ['t', 'e', 's']) =
        word_matches ['t', 'e', 's', 't'] ['t', 'e', 's']) :=
  ⟨by decide, by decide,
    C8_unrecognized_chars ['!', 'a', 'b'] ['t', 'e', 's', 't'] ['t', 'e', 's'] '!'
      (by decide) (by decide)⟩

/-- Follows the spec's words (section 4.2) for the gem multiplier: for each gem
category, if any letter of that category's letter set appears anywhere in the
word, multiply once by that category's fixed factor, never more. Written only
for comparison with gem_multiplier, which embeds the code's loop. -/
def gem_multiplier_spec (gems : List (Gem × List Char)) (word : List Char) : ℚ :=
  (gems.map
    (fun gl => if gl.2.any (fun c => decide (c ∈ word)) then
      GEM_DAMAGE_MODIFIERS gl.1 else 1)).prod

/-- C1 counterexample: with a Ruby gem assigned to the two letters t and e, the
code multiplies by 1.35 once per matching gem letter of the word test, giving
1.8225, not the single factor 1.35 the claim requires. -/
theorem C1_counterexample :
    gem_multiplier [(Gem.Ruby, ['t', 'e'])] ['t', 'e', 's', 't'] = 729 / 400 ∧
    gem_multiplier_spec [(Gem.Ruby, ['t', 'e'])] ['t', 'e', 's', 't'] = 27 / 20 ∧
    gem_multiplier [(Gem.Ruby, ['t', 'e'])] ['t', 'e', 's', 't'] ≠
      gem_multiplier_spec [(Gem.Ruby, ['t', 'e'])] ['t', 'e', 's', 't'] := by
  refine ⟨?_, ?_, ?_⟩ <;>
    simp [gem_multiplier, gem_multiplier_spec, GEM_DAMAGE_MODIFIERS] <;> norm_num

/-- C1 amended: each gem category multiplies the damage multiplier by its
factor once per assigned letter occurrence of that category that appears in the
word: the multiplier is the product over the gem entries of the category factor
raised to the number of that entry's letter occurrences present in the word.
Repetitions of a letter inside the word add nothing, but several assigned
letters of one category, or one letter assigned twice, each contribute one
factor. -/
theorem C1_amended_multiplier_per_gem_letter (gems : List (Gem × List Char))
    (word : List Char) :
    gem_multiplier gems word =
      (gems.map (fun gl =>
        GEM_DAMAGE_MODIFIERS gl.1 ^ gl.2.countP (fun c => decide (c ∈ word)))).prod := by
  unfold gem_multiplier
  simp only [prod_ite_mem_eq_pow]

/-- C7 counterexample: fifty scored words are truncated to thirty displayed
entries; the display limit is the hardcoded 30 of the source, not 50. -/
theorem C7_counterexample :
    (displayed_words (List.replicate 50 ['a'])).length = 30 ∧ (30 : ℕ) ≠ 50 := by
  constructor
  · simp [displayed_words]
  · decide

/-- C7 amended: the display truncation keeps the first 30 ranked words, a limit
hardcoded in the source (neither configurable nor defaulting to 50, and with no
zero-means-unlimited convention): the output has length min 30 n for an input
of length n, hence at most 30 entries, and is an initial segment of the input. -/
theorem C7_amended_truncation_limit_30 (ws : List (List Char)) :
    (displayed_words ws).length = min 30 ws.length ∧
    (displayed_words ws).length ≤ 30 ∧
    displayed_words ws ++ ws.drop 30 = ws := by
  refine ⟨?_, ?_, ?_⟩
  · simp [displayed_words]
  · simp [displayed_words]
  · simp [displayed_words]

/-- C3: the ranked output is sorted by weakly descending damage, and the sort
is stable: for every damage value d, the subsequence of output words scoring d
equals the subsequence of input words scoring d, so equal-damage words keep
their input order. -/
theorem C3_ranking_sorted_and_stable (gems : List (Gem × List Char))
    (ws : List (List Char)) :
    List.Sorted
      (fun a b => word_damage_calculator gems b ≤ word_damage_calculator gems a)
      (ranked_words gems ws) ∧
    ∀ d : ℚ,
      (ranked_words gems ws).filter
          (fun w => word_damage_calculator gems w = d) =
        ws.filter (fun w => word_damage_calculator gems w = d) := by
  constructor
  · have htot : IsTotal (List Char)
        (fun a b => word_damage_calculator gems b ≤ word_damage_calculator gems a) :=
      ⟨fun a b => le_total _ _⟩
    have htrans : IsTrans (List Char)
        (fun a b => word_damage_calculator gems b ≤ word_damage_calculator gems a) :=
      ⟨fun _ _ _ hab hbc => le_trans hbc hab⟩
    exact List.sorted_insertionSort _ ws
  · intro d
    have hpair : (ws.filter (fun w => word_damage_calculator gems w = d)).Pairwise
        (fun a b => word_damage_calculator gems b ≤ word_damage_calculator gems a) := by
      apply List.pairwise_of_forall_mem_list
      intro a ha b hb
      rw [List.mem_filter] at ha hb
      have hda : word_damage_calculator gems a = d := by simpa using ha.2
      have hdb : word_damage_calculator gems b = d := by simpa using hb.2
      rw [hda, hdb]
    have hsub : List.Sublist
        (ws.filter (fun w => word_damage_calculator gems w = d))
        (ranked_words gems ws) :=
      List.sublist_insertionSort hpair (List.filter_sublist ws)
    have hsub2 : List.Sublist
        (ws.filter (fun w => word_damage_calculator gems w = d))
        ((ranked_words gems ws).filter
          (fun w => word_damage_calculator gems w = d)) := by
      have := hsub.filter (fun w => decide (word_damage_calculator gems w = d))
      simpa [List.filter_filter] using this
    have hperm : List.Perm
        ((ranked_words gems ws).filter
          (fun w => word_damage_calculator gems w = d))
        (ws.filter (fun w => word_damage_calculator gems w = d)) :=
      (List.perm_insertionSort _ ws).filter _
    exact (hsub2.eq_of_length hperm.length_eq.symm).symm

/-- C10: for every lowercase string in which each occurrence of q is
immediately followed by u, collapsing qu to q (the board and dictionary
normalization) and then expanding q back to qu (the display transform) returns
the original string. -/
theorem C10_qu_round_trip (s : List Char)
    (hlower : ∀ c ∈ s, c.isLower = true) (h : q_followed_by_u s = true) :
    replace_q_qu (replace_qu_q s) = s := by
  clear hlower
  induction s using replace_qu_q.induct with
  | case1 => rfl
  | case2 rest ih =>
    have h' : q_followed_by_u rest = true := by
      simpa [q_followed_by_u] using h
    simp [replace_qu_q, replace_q_qu, ih h']
  | case3 c rest hne ih =>
    by_cases hc : c = 'q'
    · subst hc
      match rest, hne with
      | [], _ => simp [q_followed_by_u] at h
      | d :: t, hne =>
        have hd : d ≠ 'u' := by
          intro hd
          subst hd
          exact hne t rfl rfl
        rw [q_followed_by_u] at h
        simp [hd] at h
    · have h' : q_followed_by_u rest = true := by
        cases rest with
        | nil => rfl
        | cons d t =>
          rw [q_followed_by_u] at h
          · exact h
          all_goals simp [hc]
      simp [replace_qu_q, replace_q_qu, hc, ih h']

/-- C10 witness: the string quiz, all lowercase with its q followed by u, is
normalized to qiz and displayed back as quiz. -/
theorem C10_witness :
    (∀ c ∈ ['q', 'u', 'i', 'z'], c.isLower = true) ∧
    q_followed_by_u ['q', 'u', 'i', 'z'] = true ∧
    replace_q_qu (replace_qu_q ['q', 'u', 'i', 'z']) = ['q', 'u', 'i', 'z'] :=
  ⟨by decide, by decide, C10_qu_round_trip ['q', 'u', 'i', 'z'] (by decide) (by decide)⟩
